import Mathlib

/-!
# Verification of the Capricorn medical-research client pipeline

Shallow embedding of `frontend/src/utils/api.js` and the config module
(`getConfig`).  JavaScript strings are modelled as `List Char`; network
chunk sequences as `List (List Char)`; the streaming consumers are modelled
as executable functions from the received chunk list to the sequence of
values delivered to their callback.  Fallible operations return
`Option`/`Except`.
-/

namespace Capricorn

/-- Model of the JavaScript whitespace class used by `String.prototype.trim`
and by truthiness of `event.trim()` (space, tab, LF, CR, VT, FF). -/
def isWsChar (c : Char) : Bool :=
  c = ' ' || c = '\t' || c = '\n' || c = '\r' || c = Char.ofNat 11 || c = Char.ofNat 12

/-- Model of JavaScript `String.prototype.trim`: drop whitespace from both
ends of the character sequence. -/
def trimList (cs : List Char) : List Char :=
  ((cs.dropWhile isWsChar).reverse.dropWhile isWsChar).reverse

/-- Splits a character sequence at a separator, returning the complete
segments (each one delimited on the right by an occurrence of `sep`) and the
trailing remainder that is not yet terminated by `sep`.  This is the state
of the newline-buffering loop of `retrieveAndAnalyzeArticles`. -/
def linesOf (sep : Char) : List Char → List (List Char) × List Char
  | [] => ([], [])
  | c :: rest =>
    let p := linesOf sep rest
    if c = sep then ([] :: p.1, p.2)
    else
      match p.1 with
      | l :: ls => ((c :: l) :: ls, p.2)
      | [] => ([], c :: p.2)

/-- Model of JavaScript `String.prototype.split(sep)` for a one-character
separator: all segments, the trailing (possibly empty) one included. -/
def splitAllCh (sep : Char) (cs : List Char) : List (List Char) :=
  (linesOf sep cs).1 ++ [(linesOf sep cs).2]

/-- Model of JavaScript `String.prototype.indexOf` for a one-character
needle; `none` models the return value `-1`. -/
def jsIndexOf (c : Char) : List Char → Option Nat
  | [] => none
  | x :: xs => if x = c then some 0 else (jsIndexOf c xs).map (· + 1)

/-- Model of JavaScript `String.prototype.startsWith`: `startsWithL pat s`
is true iff `pat` is an initial segment of `s`. -/
def startsWithL : List Char → List Char → Bool
  | [], _ => true
  | _ :: _, [] => false
  | p :: ps, c :: cs => p = c && startsWithL ps cs

/-! ## Lemmas about the character-level utilities -/

theorem linesOf_fst_nil_of_not_mem {sep : Char} :
    ∀ {cs : List Char}, sep ∉ cs → linesOf sep cs = ([], cs) := by
  intro cs
  induction cs with
  | nil => intro _; rfl
  | cons c rest ih =>
    intro h
    have hc : c ≠ sep := fun hc => h (hc ▸ List.mem_cons_self c rest)
    have hrest : sep ∉ rest := fun hr => h (List.mem_cons_of_mem c hr)
    simp [linesOf, hc, ih hrest]

theorem linesOf_snd_not_mem {sep : Char} :
    ∀ (cs : List Char), sep ∉ (linesOf sep cs).2 := by
  intro cs
  induction cs with
  | nil => simp [linesOf]
  | cons c rest ih =>
    by_cases hc : c = sep
    · simpa [linesOf, hc] using ih
    · simp only [linesOf, if_neg hc]
      cases hls : (linesOf sep rest).1 with
      | cons l ls => simpa [hls] using ih
      | nil =>
        simp only [hls, List.mem_cons]
        rintro (h | h)
        · exact hc h.symm
        · exact ih h

theorem linesOf_append (sep : Char) :
    ∀ (a b : List Char),
      linesOf sep (a ++ b) =
        ((linesOf sep a).1 ++ (linesOf sep ((linesOf sep a).2 ++ b)).1,
         (linesOf sep ((linesOf sep a).2 ++ b)).2) := by
  intro a
  induction a with
  | nil => intro b; simp [linesOf]
  | cons c a' ih =>
    intro b
    by_cases hc : c = sep
    · simp [linesOf, hc, ih b, List.append_eq]
    · simp only [List.cons_append, linesOf, if_neg hc, List.append_eq]
      rw [ih b]
      rcases hA : (linesOf sep a').1 with _ | ⟨x, xs⟩
      · simp only [hA, List.nil_append]
        rcases hI : (linesOf sep ((linesOf sep a').2 ++ b)).1 with _ | ⟨y, ys⟩
        · simp [linesOf, if_neg hc, hI, List.append_eq]
        · simp [linesOf, if_neg hc, hI, List.append_eq]
      · simp [hA]

theorem linesOf_line_append {sep : Char} :
    ∀ {l : List Char}, sep ∉ l → ∀ (xs : List Char),
      linesOf sep (l ++ sep :: xs) = (l :: (linesOf sep xs).1, (linesOf sep xs).2) := by
  intro l
  induction l with
  | nil => intro _ xs; simp [linesOf]
  | cons c l' ih =>
    intro h xs
    have hc : c ≠ sep := fun hc => h (hc ▸ List.mem_cons_self c l')
    have hl : sep ∉ l' := fun hr => h (List.mem_cons_of_mem c hr)
    simp [linesOf, hc, ih hl xs]

theorem jsIndexOf_eq_none_iff {c : Char} :
    ∀ {cs : List Char}, jsIndexOf c cs = none ↔ c ∉ cs := by
  intro cs
  induction cs with
  | nil => simp [jsIndexOf]
  | cons x xs ih =>
    by_cases hx : x = c
    · simp [jsIndexOf, hx]
    · have hcx : ¬ c = x := fun h => hx h.symm
      cases h : jsIndexOf c xs with
      | none => simp [jsIndexOf, if_neg hx, h, hcx, ih.mp h]
      | some k =>
        have hmem : c ∈ xs := by
          by_contra hnot
          rw [ih.mpr hnot] at h
          exact Option.noConfusion h
        simp [jsIndexOf, if_neg hx, h, hmem]

theorem jsIndexOf_spec {c : Char} :
    ∀ {cs : List Char} {k : Nat}, jsIndexOf c cs = some k →
      c ∉ cs.take k ∧ cs = cs.take k ++ c :: cs.drop (k + 1) := by
  intro cs
  induction cs with
  | nil => intro k h; exact Option.noConfusion h
  | cons x xs ih =>
    intro k h
    by_cases hx : x = c
    · simp only [jsIndexOf, if_pos hx] at h
      injection h with h0
      subst h0
      refine ⟨by simp, by simp [hx]⟩
    · simp only [jsIndexOf, if_neg hx] at h
      cases hrec : jsIndexOf c xs with
      | none => rw [hrec] at h; exact Option.noConfusion h
      | some j =>
        rw [hrec] at h
        simp only [Option.map_some'] at h
        injection h with hjk
        subst hjk
        obtain ⟨h1, h2⟩ := ih hrec
        constructor
        · simp only [List.take_succ_cons, List.mem_cons]
          rintro (h' | h')
          · exact hx h'.symm
          · exact h1 h'
        · simp only [List.take_succ_cons, List.drop_succ_cons, List.cons_append,
            List.cons.injEq, true_and]
          exact h2

theorem startsWithL_append (pat rest : List Char) :
    startsWithL pat (pat ++ rest) = true := by
  induction pat with
  | nil => rfl
  | cons p ps ih =>
    show (decide (p = p) && startsWithL ps (ps ++ rest)) = true
    simp [ih]

/-! ## Wire format: flat JSON objects with string fields

The streaming endpoints emit self-contained JSON objects, one per
line/frame, whose fields are strings (`spec.md` section 6).  The model of
`JSON.parse` below is restricted to exactly that shape (no whitespace, no
nesting): every value a claim feeds to it is produced by `encodeObj`, and on
any other line its failure coincides with the consumer's skip behaviour. -/

/-- A parsed flat JSON object: an association list of string keys to string
values.  This is the value `JSON.parse` hands to the stream consumers. -/
abbrev JObj := List (List Char × List Char)

/-- JSON string-escape for one character (quote, backslash, and the control
characters the encoders can produce). -/
def escCh (c : Char) : List Char :=
  if c = '"' then ['\\', '"']
  else if c = '\\' then ['\\', '\\']
  else if c = '\n' then ['\\', 'n']
  else if c = '\t' then ['\\', 't']
  else if c = '\r' then ['\\', 'r']
  else [c]

/-- JSON string-escape for a character sequence. -/
def escList : List Char → List Char
  | [] => []
  | c :: cs => escCh c ++ escList cs

/-- A JSON string literal: the escaped content between double quotes. -/
def strlit (s : List Char) : List Char := '"' :: (escList s ++ ['"'])

/-- Inverse of `escCh` on the character after a backslash. -/
def unescCh (e : Char) : Option Char :=
  if e = '"' then some '"'
  else if e = '\\' then some '\\'
  else if e = 'n' then some '\n'
  else if e = 't' then some '\t'
  else if e = 'r' then some '\r'
  else none

/-- Parses the body of a JSON string literal (after the opening quote) up to
the closing quote, returning the unescaped content and the rest. -/
def parseStrBody : List Char → Option (List Char × List Char)
  | [] => none
  | c :: rest =>
    if c = '"' then some ([], rest)
    else if c = '\\' then
      match rest with
      | [] => none
      | e :: rest2 =>
        match unescCh e with
        | none => none
        | some u => (parseStrBody rest2).map (fun p => (u :: p.1, p.2))
    else (parseStrBody rest).map (fun p => (c :: p.1, p.2))
termination_by structural cs => cs

/-- Parses a JSON string literal, opening quote included. -/
def parseStr : List Char → Option (List Char × List Char)
  | '"' :: rest => parseStrBody rest
  | _ => none

/-- Parses the `"key":"value"` pairs of a flat JSON object up to and
including the closing brace.  The fuel bounds the number of pairs; the
callers pass the input length, which always suffices. -/
def parsePairsF : Nat → List Char → Option (JObj × List Char)
  | 0, _ => none
  | fuel + 1, cs =>
    match parseStr cs with
    | none => none
    | some (k, r1) =>
      match r1 with
      | ':' :: r2 =>
        match parseStr r2 with
        | none => none
        | some (v, r3) =>
          match r3 with
          | ',' :: r4 => (parsePairsF fuel r4).map (fun p => ((k, v) :: p.1, p.2))
          | '}' :: r4 => some ([(k, v)], r4)
          | _ => none
      | _ => none

/-- Model of `JSON.parse` restricted to the wire format: a flat object with
string-valued fields and no surrounding whitespace, consuming the whole
input.  Any other input is a parse failure (`none`). -/
def jsonParse (cs : List Char) : Option JObj :=
  match cs with
  | '{' :: rest =>
    if rest = ['}'] then some []
    else
      match parsePairsF rest.length rest with
      | some (ps, r) => if r = [] then some ps else none
      | none => none
  | _ => none

/-- Encodes the pairs of a flat JSON object, closing brace included. -/
def encodePairs : JObj → List Char
  | [] => ['}']
  | (k, v) :: rest =>
    strlit k ++ (':' :: (strlit v ++
      (match rest with
       | [] => ['}']
       | _ :: _ => ',' :: encodePairs rest)))

/-- Encodes a flat JSON object as a self-contained JSON text. -/
def encodeObj (ps : JObj) : List Char := '{' :: encodePairs ps

/-- Model of JavaScript property access `obj.key` on a parsed object:
the first binding of the key, if any. -/
def lookupKey (obj : JObj) (key : List Char) : Option (List Char) :=
  match obj with
  | [] => none
  | (k, v) :: rest => if k = key then some v else lookupKey rest key

/-! ## Round-trip lemmas for the wire format -/

theorem parseStrBody_quote (rest : List Char) :
    parseStrBody ('"' :: rest) = some ([], rest) := by
  rw [parseStrBody.eq_def]
  simp

theorem parseStrBody_esc (e : Char) (rest2 : List Char) :
    parseStrBody ('\\' :: e :: rest2) =
      match unescCh e with
      | none => none
      | some u => (parseStrBody rest2).map (fun p => (u :: p.1, p.2)) := by
  rw [parseStrBody.eq_def]
  simp

theorem parseStrBody_raw (c : Char) (h1 : ¬ c = '"') (h2 : ¬ c = '\\') (rest : List Char) :
    parseStrBody (c :: rest) = (parseStrBody rest).map (fun p => (c :: p.1, p.2)) := by
  rw [parseStrBody.eq_def]
  simp [h1, h2]

theorem parseStrBody_escList :
    ∀ (s rest : List Char), parseStrBody (escList s ++ '"' :: rest) = some (s, rest) := by
  intro s
  induction s with
  | nil => intro rest; simp [escList, parseStrBody_quote]
  | cons c s' ih =>
    intro rest
    by_cases h1 : c = '"'
    · simp [escList, escCh, h1, parseStrBody_esc, unescCh, ih]
    · by_cases h2 : c = '\\'
      · simp [escList, escCh, h1, h2, parseStrBody_esc, unescCh, ih]
      · by_cases h3 : c = '\n'
        · simp [escList, escCh, h1, h2, h3, parseStrBody_esc, unescCh, ih]
        · by_cases h4 : c = '\t'
          · simp [escList, escCh, h1, h2, h3, h4, parseStrBody_esc, unescCh, ih]
          · by_cases h5 : c = '\r'
            · simp [escList, escCh, h1, h2, h3, h4, h5, parseStrBody_esc, unescCh, ih]
            · simp [escList, escCh, h1, h2, h3, h4, h5, parseStrBody_raw c h1 h2, ih]

theorem parseStr_strlit (s rest : List Char) :
    parseStr (strlit s ++ rest) = some (s, rest) := by
  show parseStr ('"' :: (escList s ++ ['"']) ++ rest) = some (s, rest)
  simp only [List.cons_append, List.append_assoc, List.singleton_append]
  show parseStrBody (escList s ++ '"' :: rest) = some (s, rest)
  exact parseStrBody_escList s rest

theorem length_encodePairs : ∀ (ps : JObj), ps.length ≤ (encodePairs ps).length := by
  intro ps
  induction ps with
  | nil => simp [encodePairs]
  | cons kv rest ih =>
    obtain ⟨k, v⟩ := kv
    cases rest with
    | nil =>
      rw [show encodePairs [(k, v)] = strlit k ++ (':' :: (strlit v ++ ['}'])) from rfl]
      simp only [List.length_append, List.length_cons, List.length_nil, List.length_singleton]
      omega
    | cons kv2 rest2 =>
      have h := ih
      rw [show encodePairs ((k, v) :: kv2 :: rest2) =
        strlit k ++ (':' :: (strlit v ++ (',' :: encodePairs (kv2 :: rest2)))) from rfl]
      simp only [List.length_append, List.length_cons] at h ⊢
      omega

theorem parsePairsF_encodePairs :
    ∀ (ps : JObj) (f : Nat), ps ≠ [] → ps.length ≤ f →
      parsePairsF f (encodePairs ps) = some (ps, []) := by
  intro ps
  induction ps with
  | nil => intro f h _; exact absurd rfl h
  | cons kv rest ih =>
    intro f _ hlen
    obtain ⟨k, v⟩ := kv
    cases f with
    | zero => simp at hlen
    | succ f' =>
      cases rest with
      | nil =>
        rw [show encodePairs [(k, v)] = strlit k ++ (':' :: (strlit v ++ ['}'])) from rfl]
        simp [parsePairsF, parseStr_strlit]
      | cons kv2 rest2 =>
        have hrec : parsePairsF f' (encodePairs (kv2 :: rest2)) = some (kv2 :: rest2, []) := by
          apply ih f' (by simp)
          simp only [List.length_cons] at hlen ⊢
          omega
        rw [show encodePairs ((k, v) :: kv2 :: rest2) =
          strlit k ++ (':' :: (strlit v ++ (',' :: encodePairs (kv2 :: rest2)))) from rfl]
        simp [parsePairsF, parseStr_strlit, hrec]

theorem encodePairs_head (k v : List Char) (rest : JObj) :
    ∃ t, encodePairs ((k, v) :: rest) = '"' :: t := by
  cases rest with
  | nil => exact ⟨(escList k ++ ['"']) ++ (':' :: (strlit v ++ ['}'])), rfl⟩
  | cons kv2 rest2 =>
    exact ⟨(escList k ++ ['"']) ++ (':' :: (strlit v ++ (',' :: encodePairs (kv2 :: rest2)))), rfl⟩

theorem jsonParse_encodeObj (ps : JObj) : jsonParse (encodeObj ps) = some ps := by
  cases ps with
  | nil => rfl
  | cons kv rest =>
    obtain ⟨k, v⟩ := kv
    have key : parsePairsF (encodePairs ((k, v) :: rest)).length
        (encodePairs ((k, v) :: rest)) = some ((k, v) :: rest, []) :=
      parsePairsF_encodePairs _ _ (by simp) (length_encodePairs _)
    obtain ⟨t, ht⟩ := encodePairs_head k v rest
    show jsonParse ('{' :: encodePairs ((k, v) :: rest)) = some ((k, v) :: rest)
    rw [ht] at key ⊢
    simp only [List.length_cons] at key
    simp [jsonParse, key]

theorem nl_not_mem_escCh (c : Char) : '\n' ∉ escCh c := by
  unfold escCh
  split_ifs with h1 h2 h3 h4 h5 <;> simp_all
  intro h
  exact h3 h.symm

theorem nl_not_mem_escList : ∀ (s : List Char), '\n' ∉ escList s := by
  intro s
  induction s with
  | nil => simp [escList]
  | cons c s' ih =>
    simp only [escList, List.mem_append]
    rintro (h | h)
    · exact nl_not_mem_escCh c h
    · exact ih h

theorem nl_not_mem_strlit (s : List Char) : '\n' ∉ strlit s := by
  simp only [strlit, List.mem_cons, List.mem_append, List.mem_singleton]
  rintro (h | h | h)
  · exact absurd h (by decide)
  · exact nl_not_mem_escList s h
  · exact absurd h (by decide)

theorem nl_not_mem_encodePairs : ∀ (ps : JObj), '\n' ∉ encodePairs ps := by
  intro ps
  induction ps with
  | nil =>
    intro h
    rcases List.mem_singleton.mp h with h
    exact absurd h (by decide)
  | cons kv rest ih =>
    obtain ⟨k, v⟩ := kv
    intro hmem
    cases rest with
    | nil =>
      rw [show encodePairs [(k, v)] = strlit k ++ (':' :: (strlit v ++ ['}'])) from rfl] at hmem
      rcases List.mem_append.mp hmem with h | h
      · exact nl_not_mem_strlit k h
      · rcases List.mem_cons.mp h with h | h
        · exact absurd h (by decide)
        · rcases List.mem_append.mp h with h | h
          · exact nl_not_mem_strlit v h
          · rcases List.mem_singleton.mp h with h
            exact absurd h (by decide)
    | cons kv2 rest2 =>
      rw [show encodePairs ((k, v) :: kv2 :: rest2) =
        strlit k ++ (':' :: (strlit v ++ (',' :: encodePairs (kv2 :: rest2)))) from rfl] at hmem
      rcases List.mem_append.mp hmem with h | h
      · exact nl_not_mem_strlit k h
      · rcases List.mem_cons.mp h with h | h
        · exact absurd h (by decide)
        · rcases List.mem_append.mp h with h | h
          · exact nl_not_mem_strlit v h
          · rcases List.mem_cons.mp h with h | h
            · exact absurd h (by decide)
            · exact ih h

theorem nl_not_mem_encodeObj (ps : JObj) : '\n' ∉ encodeObj ps := by
  simp only [encodeObj, List.mem_cons]
  rintro (h | h)
  · exact absurd h (by decide)
  · exact nl_not_mem_encodePairs ps h

theorem encodePairs_getLast : ∀ (ps : JObj), ∃ body, encodePairs ps = body ++ ['}'] := by
  intro ps
  induction ps with
  | nil => exact ⟨[], rfl⟩
  | cons kv rest ih =>
    obtain ⟨k, v⟩ := kv
    cases rest with
    | nil =>
      refine ⟨strlit k ++ (':' :: strlit v), ?_⟩
      rw [show encodePairs [(k, v)] = strlit k ++ (':' :: (strlit v ++ ['}'])) from rfl]
      simp [List.append_assoc]
    | cons kv2 rest2 =>
      obtain ⟨body, hbody⟩ := ih
      refine ⟨strlit k ++ (':' :: (strlit v ++ (',' :: body))), ?_⟩
      rw [show encodePairs ((k, v) :: kv2 :: rest2) =
        strlit k ++ (':' :: (strlit v ++ (',' :: encodePairs (kv2 :: rest2)))) from rfl, hbody]
      simp [List.append_assoc]

theorem trimList_eq_self : ∀ {cs : List Char},
    (∀ c, cs.head? = some c → isWsChar c = false) →
    (∀ c, cs.getLast? = some c → isWsChar c = false) →
    trimList cs = cs := by
  intro cs h1 h2
  cases cs with
  | nil => rfl
  | cons a t =>
    unfold trimList
    rw [List.dropWhile_cons, if_neg (by simp [h1 a rfl])]
    cases hrev : (a :: t).reverse with
    | nil => exact absurd hrev (by simp)
    | cons b r =>
      have hb : (a :: t).getLast? = some b := by
        rw [← List.head?_reverse, hrev]; rfl
      rw [List.dropWhile_cons, if_neg (by simp [h2 b hb]), ← hrev, List.reverse_reverse]

theorem trimList_encodeObj (ps : JObj) : trimList (encodeObj ps) = encodeObj ps := by
  obtain ⟨body, hbody⟩ := encodePairs_getLast ps
  apply trimList_eq_self
  · intro c hc
    simp only [encodeObj, List.head?_cons, Option.some.injEq] at hc
    subst hc; decide
  · intro c hc
    rw [show encodeObj ps = ('{' :: body) ++ ['}'] by simp [encodeObj, hbody],
      List.getLast?_concat] at hc
    cases hc; decide

/-! ## The `retrieveAndAnalyzeArticles` stream consumer

Model of the `reader.on('data', ...)` handler of
`retrieveAndAnalyzeArticles` (`api.js` lines 44-66).  The handler appends
the decoded chunk to a persistent buffer, then repeatedly slices off the
text before the newline at index `lineEnd`, trims it, skips it when empty
(`continue` — which, as in the source, skips the recomputation of
`lineEnd` at the bottom of the loop, leaving the index stale), otherwise
parses it as JSON and invokes `onProgress` when the parsed value has a
truthy `type` property.  The loop does not terminate on some inputs (the
stale index never becomes `-1` once the buffer is exhausted), therefore
the model carries fuel; `drainChunk` supplies enough fuel for every
terminating execution, so `none` models precisely the non-terminating
runs. -/

/-- JS guard `data && typeof data === 'object' && data.type` on a parsed
value: in the wire model every parsed value is an object, so the guard is
truthiness of its `type` property (present and a nonempty string). -/
def truthyType (obj : JObj) : Bool :=
  match lookupKey obj ("type".toList) with
  | some v => !v.isEmpty
  | none => false

/-- The `try { JSON.parse(line); if (...) onProgress(data) } catch {...}`
body on an already-trimmed line: the delivered object, if any. -/
def emitOfLine (line : List Char) : Option JObj :=
  match jsonParse line with
  | some obj => if truthyType obj then some obj else none
  | none => none

/-- The whole per-line behaviour on a raw (untrimmed) complete line: trim,
skip when empty, else parse and filter. -/
def lineToEvent (rawLine : List Char) : Option JObj :=
  if trimList rawLine = [] then none else emitOfLine (trimList rawLine)

/-- One run of the `while (lineEnd !== -1)` drain loop, taken verbatim from
the source: `le` is the current `lineEnd` (`none` = `-1`), the result is
the list of objects passed to `onProgress` and the final buffer; `none`
means the loop did not terminate within the given fuel. -/
def drain : Nat → List Char → Option Nat → Option (List JObj × List Char)
  | 0, _, _ => none
  | fuel + 1, buffer, le =>
    match le with
    | none => some ([], buffer)
    | some k =>
      let line := trimList (buffer.take k)
      let buf2 := buffer.drop (k + 1)
      if line = [] then drain fuel buf2 (some k)
      else
        match drain fuel buf2 (jsIndexOf '\n' buf2) with
        | none => none
        | some p =>
          match emitOfLine line with
          | some obj => some (obj :: p.1, p.2)
          | none => some p
termination_by structural fuel => fuel

/-- One `data` event: append the chunk to the buffer, compute `lineEnd`,
run the drain loop.  The fuel `length + 1` suffices for every terminating
execution of the loop (each iteration that continues consumes at least one
buffered character), so `none` is exactly non-termination of the source. -/
def drainChunk (buffer chunk : List Char) : Option (List JObj × List Char) :=
  drain ((buffer ++ chunk).length + 1) (buffer ++ chunk) (jsIndexOf '\n' (buffer ++ chunk))

/-- Processes the successive network chunks, threading the buffer. -/
def retrieveFold : List Char → List (List Char) → Option (List JObj)
  | _, [] => some []
  | buffer, c :: cs =>
    match drainChunk buffer c with
    | none => none
    | some p =>
      match retrieveFold p.2 cs with
      | none => none
      | some out => some (p.1 ++ out)

/-- `retrieveAndAnalyzeArticles`, observed at its `onProgress` callback:
the sequence of parsed objects delivered for a given chunk sequence
(initial buffer empty; the unterminated trailing buffer is discarded at
stream end, as in the source). -/
def retrieveAndAnalyzeArticles (chunks : List (List Char)) : Option (List JObj) :=
  retrieveFold [] chunks

/-- A byte stream is well-lined when none of its complete lines is
whitespace-only — true of everything the retrieve endpoint produces, since
each emitted unit is a self-contained JSON object on its own line. -/
def goodLines (s : List Char) : Prop :=
  ∀ l ∈ (linesOf '\n' s).1, trimList l ≠ []

instance (s : List Char) : Decidable (goodLines s) := by
  unfold goodLines
  infer_instance

theorem drain_good :
    ∀ (n : Nat) (s : List Char), s.length < n → goodLines s →
      drain n s (jsIndexOf '\n' s) =
        some ((linesOf '\n' s).1.filterMap lineToEvent, (linesOf '\n' s).2) := by
  intro n
  induction n with
  | zero => intro s h _; exact absurd h (by omega)
  | succ n ih =>
    intro s hlen hgood
    cases hidx : jsIndexOf '\n' s with
    | none =>
      have hnm : '\n' ∉ s := jsIndexOf_eq_none_iff.mp hidx
      rw [linesOf_fst_nil_of_not_mem hnm]
      simp [drain]
    | some k =>
      obtain ⟨hpre, hs⟩ := jsIndexOf_spec hidx
      have hlines : linesOf '\n' s =
          ((s.take k) :: (linesOf '\n' (s.drop (k + 1))).1,
           (linesOf '\n' (s.drop (k + 1))).2) := by
        conv_lhs => rw [hs]
        exact linesOf_line_append hpre _
      have hgood2 : goodLines (s.drop (k + 1)) := by
        intro l hl
        exact hgood l (by rw [hlines]; exact List.mem_cons_of_mem _ hl)
      have htr : trimList (s.take k) ≠ [] :=
        hgood _ (by rw [hlines]; exact List.mem_cons_self _ _)
      have hlen2 : (s.drop (k + 1)).length < n := by
        have hq := congrArg List.length hs
        simp only [List.length_append, List.length_cons] at hq
        omega
      have hrec := ih (s.drop (k + 1)) hlen2 hgood2
      show drain (n + 1) s (some k) = _
      rw [show drain (n + 1) s (some k) =
        (if trimList (s.take k) = [] then drain n (s.drop (k + 1)) (some k)
         else
           match drain n (s.drop (k + 1)) (jsIndexOf '\n' (s.drop (k + 1))) with
           | none => none
           | some p =>
             match emitOfLine (trimList (s.take k)) with
             | some obj => some (obj :: p.1, p.2)
             | none => some p) from rfl]
      rw [if_neg htr, hrec, hlines]
      rw [List.filterMap_cons]
      rw [show lineToEvent (s.take k) = emitOfLine (trimList (s.take k)) by
        unfold lineToEvent; rw [if_neg htr]]
      cases emitOfLine (trimList (s.take k)) <;> rfl

theorem goodLines_left {a b : List Char} (h : goodLines (a ++ b)) : goodLines a := by
  intro l hl
  apply h
  rw [linesOf_append '\n' a b, List.mem_append]
  exact Or.inl hl

theorem goodLines_rem {a b : List Char} (h : goodLines (a ++ b)) :
    goodLines ((linesOf '\n' a).2 ++ b) := by
  intro l hl
  apply h
  rw [linesOf_append '\n' a b, List.mem_append]
  exact Or.inr hl

theorem retrieveFold_good :
    ∀ (chunks : List (List Char)) (buffer : List Char),
      '\n' ∉ buffer → goodLines (buffer ++ chunks.flatten) →
      retrieveFold buffer chunks =
        some ((linesOf '\n' (buffer ++ chunks.flatten)).1.filterMap lineToEvent) := by
  intro chunks
  induction chunks with
  | nil =>
    intro buffer hnm _
    rw [show ([] : List (List Char)).flatten = [] from rfl, List.append_nil,
      linesOf_fst_nil_of_not_mem hnm]
    rfl
  | cons c cs ih =>
    intro buffer hnm hgood
    have hjoin : buffer ++ (c :: cs).flatten = (buffer ++ c) ++ cs.flatten := by
      rw [List.flatten_cons, List.append_assoc]
    rw [hjoin] at hgood
    have hgood1 : goodLines (buffer ++ c) := goodLines_left hgood
    have hd : drainChunk buffer c =
        some ((linesOf '\n' (buffer ++ c)).1.filterMap lineToEvent,
              (linesOf '\n' (buffer ++ c)).2) :=
      drain_good _ _ (by omega) hgood1
    have hrem : '\n' ∉ (linesOf '\n' (buffer ++ c)).2 := linesOf_snd_not_mem _
    have hrec := ih _ hrem (goodLines_rem hgood)
    show retrieveFold buffer (c :: cs) = _
    rw [show retrieveFold buffer (c :: cs) =
      (match drainChunk buffer c with
       | none => none
       | some p =>
         match retrieveFold p.2 cs with
         | none => none
         | some out => some (p.1 ++ out)) from rfl]
    rw [hd]
    simp only
    rw [hrec, hjoin, linesOf_append '\n' (buffer ++ c) cs.flatten]
    simp [List.filterMap_append]

theorem retrieveRun_good (chunks : List (List Char)) (h : goodLines chunks.flatten) :
    retrieveAndAnalyzeArticles chunks =
      some ((linesOf '\n' chunks.flatten).1.filterMap lineToEvent) := by
  have := retrieveFold_good chunks [] (by simp) (by simpa using h)
  simpa [retrieveAndAnalyzeArticles] using this

/-! ## The ProgressEvent streams of the retrieve-and-analyze endpoint

The backend that produces the stream is not part of `src/` (only
deployment scripting for it is), so its output is modelled from the spec:
a newline-delimited sequence of self-contained JSON ProgressEvent objects
(`{type: "status"|"article"|"error"|"done", payload}`; an `"error"` entry
is either scoped to one article or terminal for the stream), and every
stream ends with exactly one terminal marker — `"done"` always last, a
terminal `"error"` terminates the stream. -/

/-- Modelled from the spec: the kind of a ProgressEvent emitted by the
retrieve-and-analyze backend (which is absent from `src/`). -/
inductive PKind
  | status
  | article
  | errorScoped
  | errorTerminal
  | done
deriving DecidableEq

/-- Modelled from the spec: one ProgressEvent of the streaming protocol. -/
structure PEvent where
  kind : PKind
  payload : List Char
deriving DecidableEq

/-- The `type` field carried on the wire for each kind of event. -/
def kindTypeStr : PKind → List Char
  | .status => "status".toList
  | .article => "article".toList
  | .errorScoped => "error".toList
  | .errorTerminal => "error".toList
  | .done => "done".toList

/-- The `scope` field carried on the wire: `"article"` for a per-article
error entry, `"stream"` otherwise. -/
def kindScopeStr : PKind → List Char
  | .errorScoped => "article".toList
  | _ => "stream".toList

/-- The JSON object a ProgressEvent is serialized as. -/
def toObj (e : PEvent) : JObj :=
  [("type".toList, kindTypeStr e.kind), ("scope".toList, kindScopeStr e.kind),
   ("payload".toList, e.payload)]

/-- Terminal events: `"done"`, or a stream-terminal `"error"`. -/
def isTerminalKind : PKind → Bool
  | .done => true
  | .errorTerminal => true
  | _ => false

/-- The terminal marker as observable on an object delivered to
`onProgress`. -/
def isTerminalObj (o : JObj) : Bool :=
  decide (lookupKey o ("type".toList) = some ("done".toList)) ||
    (decide (lookupKey o ("type".toList) = some ("error".toList)) &&
     decide (lookupKey o ("scope".toList) = some ("stream".toList)))

/-- Modelled from the spec: the newline-delimited wire serialization of a
ProgressEvent stream, one self-contained JSON object per line. -/
def wireOf : List PEvent → List Char
  | [] => []
  | e :: es => encodeObj (toObj e) ++ '\n' :: wireOf es

/-- Modelled from the spec: a well-formed endpoint stream ends with exactly
one terminal event, and nothing follows it. -/
def wellFormedStream (es : List PEvent) : Prop :=
  ∃ pre t, es = pre ++ [t] ∧ isTerminalKind t.kind = true ∧
    ∀ e ∈ pre, isTerminalKind e.kind = false

theorem isTerminalObj_toObj (e : PEvent) :
    isTerminalObj (toObj e) = isTerminalKind e.kind := by
  cases e with
  | mk kind payload =>
    cases kind <;>
      simp [isTerminalObj, toObj, lookupKey, kindTypeStr, kindScopeStr, isTerminalKind,
        show ("type".toList : List Char) ≠ "scope".toList from by decide]

theorem truthyType_toObj (e : PEvent) : truthyType (toObj e) = true := by
  cases e with
  | mk kind payload =>
    cases kind <;> simp [truthyType, toObj, lookupKey, kindTypeStr]

theorem lineToEvent_encodeObj_toObj (e : PEvent) :
    lineToEvent (encodeObj (toObj e)) = some (toObj e) := by
  unfold lineToEvent
  rw [trimList_encodeObj]
  rw [if_neg (by simp [encodeObj])]
  unfold emitOfLine
  rw [jsonParse_encodeObj]
  simp [truthyType_toObj e]

theorem wireOf_flatten (es : List PEvent) :
    wireOf es = (es.map (fun e => encodeObj (toObj e) ++ ['\n'])).flatten := by
  induction es with
  | nil => rfl
  | cons e es ih => simp [wireOf, ih]

theorem linesOf_wireOf (es : List PEvent) :
    linesOf '\n' (wireOf es) = (es.map (fun e => encodeObj (toObj e)), []) := by
  induction es with
  | nil => rfl
  | cons e es ih =>
    show linesOf '\n' (encodeObj (toObj e) ++ '\n' :: wireOf es) = _
    rw [linesOf_line_append (nl_not_mem_encodeObj _) (wireOf es), ih]
    rfl

theorem goodLines_wireOf (es : List PEvent) : goodLines (wireOf es) := by
  intro l hl
  rw [linesOf_wireOf] at hl
  simp only [List.mem_map] at hl
  obtain ⟨e, _, rfl⟩ := hl
  rw [trimList_encodeObj]
  simp [encodeObj]

theorem filterMap_lineToEvent_wire (es : List PEvent) :
    (es.map (fun e => encodeObj (toObj e))).filterMap lineToEvent = es.map toObj := by
  induction es with
  | nil => rfl
  | cons e es ih =>
    simp only [List.map_cons, List.filterMap_cons, lineToEvent_encodeObj_toObj, ih]

theorem retrieve_delivers_wire (chunks : List (List Char)) (es : List PEvent)
    (h : chunks.flatten = wireOf es) :
    retrieveAndAnalyzeArticles chunks = some (es.map toObj) := by
  rw [retrieveRun_good chunks (by rw [h]; exact goodLines_wireOf es), h, linesOf_wireOf]
  exact congrArg some (filterMap_lineToEvent_wire es)

/-! ## The `streamChat` stream consumer

Model of the `reader.on('data', ...)` handler of `streamChat` (`api.js`
lines 92-112).  Each chunk is decoded and split on newlines on its own —
there is no buffer carried between chunks.  Each line starting with
`data: ` has the tag sliced off; `[DONE]` breaks out of the loop over the
current chunk's lines; any other payload is JSON-parsed and `onChunk`
receives its `text` field when truthy, parse failures being skipped. -/

/-- The SSE tag `data: ` checked by `line.startsWith('data: ')`. -/
def dataTag : List Char := "data: ".toList

/-- The sentinel payload `[DONE]`. -/
def doneLit : List Char := "[DONE]".toList

/-- The `JSON.parse(data)` / `if (parsed.text) onChunk(parsed.text)` body:
the text delivered for one `data:` payload, if any. -/
def chatEmit (d : List Char) : Option (List Char) :=
  match jsonParse d with
  | some obj =>
    match lookupKey obj ("text".toList) with
    | some t => if t.isEmpty then none else some t
    | none => none
  | none => none

/-- The `for (const line of lines)` loop over one decoded chunk's lines,
with `break` on the `[DONE]` sentinel: the texts passed to `onChunk`. -/
def chatLines : List (List Char) → List (List Char)
  | [] => []
  | line :: rest =>
    if startsWithL dataTag line then
      let d := line.drop 6
      if d = doneLit then []
      else
        match chatEmit d with
        | some t => t :: chatLines rest
        | none => chatLines rest
    else chatLines rest

/-- `streamChat`, observed at its `onChunk` callback: each chunk is split
on newlines independently (no cross-chunk buffering in the source). -/
def streamChat (chunks : List (List Char)) : List (List Char) :=
  (chunks.map (fun c => chatLines (splitAllCh '\n' c))).flatten

/-- An SSE frame of the chat endpoint carrying a text payload. -/
def sseFrame (t : List Char) : List Char :=
  dataTag ++ encodeObj [("text".toList, t)] ++ ['\n']

/-- The sentinel frame closing the chat stream. -/
def sseDoneFrame : List Char := dataTag ++ doneLit ++ ['\n']

/-! ## `extractDisease`, `extractEvents`, `redactSensitiveInfo`

These post-process the body of one HTTP response (`response.data`); the
models are functions of that body.  For `extractDisease` the call through
a capability is modelled by an explicit capability function indexed by the
call number. -/

/-- `extractDisease`'s post-processing: `response.data.trim()`. -/
def extractDisease (respData : List Char) : List Char := trimList respData

/-- `extractDisease` run against a capability `cap`, where `cap i text` is
the response body of the `i`-th call on input `text`. -/
def extractDiseaseWith (cap : Nat → List Char → List Char) (i : Nat)
    (text : List Char) : List Char :=
  extractDisease (cap i text)

/-- `extractEvents`'s post-processing:
`response.data.split('"').filter(event => event.trim() && event !== ' ')`. -/
def extractEvents (respData : List Char) : List (List Char) :=
  (splitAllCh '"' respData).filter
    (fun event => decide (trimList event ≠ []) && decide (event ≠ [' ']))

/-- The response shape of the redaction capability. -/
structure RedactResponse where
  redactedText : List Char

/-- The error-message text `redactSensitiveInfo` wraps a failure in. -/
def redactErrMsg : List Char := "Failed to redact sensitive information: ".toList

/-- `redactSensitiveInfo`: returns `response.data.redactedText` on success,
otherwise throws a new error wrapping the cause's message. -/
def redactSensitiveInfo (cap : List Char → Except (List Char) RedactResponse)
    (text : List Char) : Except (List Char) (List Char) :=
  match cap text with
  | .ok resp => .ok resp.redactedText
  | .error err => .error (redactErrMsg ++ err)

/-! ## The `getConfig` module

Model of the config module (`let config = null; fetchConfig; getConfig`).
The module-level variable holds a JavaScript value that is `null` until a
fetch completes; `fetch('/api/config')` followed by `response.json()` is
modelled by an oracle giving the result of the `i`-th fetch attempt —
`Except.error` for a network/parse failure; `Except.ok` carries the parsed
JSON value, which the endpoint may let be `null`. -/

/-- A JavaScript value held by the `config` variable: `null` or an object. -/
inductive CVal
  | cnull
  | cobj (fields : List (String × List Char))
deriving DecidableEq

/-- JavaScript truthiness of a `CVal` (the `!config` checks). -/
def truthy : CVal → Bool
  | .cnull => false
  | .cobj _ => true

/-- The `process.env` keys of the fallback object built in the catch. -/
def envKeys : List String :=
  ["REACT_APP_API_BASE_URL", "REACT_APP_FIREBASE_API_KEY",
   "REACT_APP_FIREBASE_AUTH_DOMAIN", "REACT_APP_FIREBASE_PROJECT_ID",
   "REACT_APP_FIREBASE_STORAGE_BUCKET", "REACT_APP_FIREBASE_MESSAGING_SENDER_ID",
   "REACT_APP_FIREBASE_APP_ID", "REACT_APP_FIREBASE_MEASUREMENT_ID"]

/-- The fallback config object assembled from `process.env`. -/
def envFallbackConfig (env : String → List Char) : CVal :=
  .cobj (envKeys.map (fun k => (k, env k)))

/-- `fetchConfig` acting on the module variable: returns the new value of
`config` and how many fetches were attempted (`0` or `1`). -/
def fetchConfig (res : Except Unit CVal) (env : String → List Char)
    (config : CVal) : CVal × Nat :=
  if truthy config then (config, 0)
  else
    match res with
    | .ok v => (v, 1)
    | .error _ => (envFallbackConfig env, 1)

/-- `getConfig` acting on the module variable: the returned value, the new
value of `config`, and how many fetches were attempted. -/
def getConfig (res : Except Unit CVal) (env : String → List Char)
    (config : CVal) : CVal × CVal × Nat :=
  if truthy config then (config, config, 0)
  else
    let p := fetchConfig res env config
    (p.1, p.1, p.2)

/-- `n` successive `getConfig` calls from process start (`config = null`,
no fetches yet): the list of returned values, the final value of the
module variable, and the total number of fetch attempts.  `oracle i` is
the result of the `i`-th fetch attempt. -/
def getConfigRun (oracle : Nat → Except Unit CVal) (env : String → List Char) :
    Nat → List CVal × CVal × Nat
  | 0 => ([], .cnull, 0)
  | n + 1 =>
    let s := getConfigRun oracle env n
    let g := getConfig (oracle s.2.2) env s.2.1
    (s.1 ++ [g.1], g.2.1, s.2.2 + g.2.2)

/-- Truthiness of a fetch outcome as cached by `fetchConfig`: a failed
fetch caches the (always truthy) env fallback object; a successful fetch
caches whatever JSON value arrived. -/
def truthyRes : Except Unit CVal → Bool
  | .ok v => truthy v
  | .error _ => true

/-! ## Auxiliary facts about `trimList` -/

theorem trimList_eq_nil_of_all_ws {e : List Char}
    (h : ∀ c ∈ e, isWsChar c = true) : trimList e = [] := by
  unfold trimList
  rw [show e.dropWhile isWsChar = [] from List.dropWhile_eq_nil_iff.mpr h]
  rfl

theorem exists_not_ws_of_trimList_ne_nil {e : List Char}
    (h : trimList e ≠ []) : ∃ c ∈ e, isWsChar c = false := by
  by_contra hnot
  push_neg at hnot
  exact h (trimList_eq_nil_of_all_ws (by
    intro c hc
    have := hnot c hc
    revert this
    cases isWsChar c <;> simp))

theorem trimList_decomposition (resp : List Char) :
    ∃ pre suf, resp = pre ++ trimList resp ++ suf ∧
      (∀ c ∈ pre, isWsChar c = true) ∧ (∀ c ∈ suf, isWsChar c = true) := by
  refine ⟨resp.takeWhile isWsChar,
    ((resp.dropWhile isWsChar).reverse.takeWhile isWsChar).reverse, ?_, ?_, ?_⟩
  · rw [List.append_assoc]
    conv_lhs => rw [← List.takeWhile_append_dropWhile (p := isWsChar) (l := resp)]
    congr 1
    unfold trimList
    rw [← List.reverse_append, List.takeWhile_append_dropWhile, List.reverse_reverse]
  · intro c hc
    exact List.mem_takeWhile_imp hc
  · intro c hc
    rw [List.mem_reverse] at hc
    exact List.mem_takeWhile_imp hc

theorem head?_dropWhile_not_of_some {p : Char → Bool} :
    ∀ {l : List Char} {a : Char}, (l.dropWhile p).head? = some a → p a = false := by
  intro l
  induction l with
  | nil => intro a h; exact Option.noConfusion h
  | cons c t ih =>
    intro a h
    by_cases hc : p c = true
    · rw [List.dropWhile_cons, if_pos hc] at h
      exact ih h
    · rw [List.dropWhile_cons, if_neg hc] at h
      simp only [List.head?_cons, Option.some.injEq] at h
      subst h
      cases hpc : p c with
      | false => rfl
      | true => exact absurd hpc hc

theorem getLast?_dropWhile_of_ne_nil {p : Char → Bool} :
    ∀ {l : List Char}, l.dropWhile p ≠ [] → (l.dropWhile p).getLast? = l.getLast? := by
  intro l
  induction l with
  | nil => intro h; exact absurd rfl h
  | cons c t ih =>
    intro h
    by_cases hc : p c = true
    · rw [List.dropWhile_cons, if_pos hc] at h ⊢
      rw [ih h]
      cases t with
      | nil => exact absurd rfl h
      | cons b t' => rw [List.getLast?_cons_cons]
    · rw [List.dropWhile_cons, if_neg hc]

/-- The first character of a trimmed string is never whitespace. -/
theorem trimList_head_not_ws {cs : List Char} :
    ∀ c, (trimList cs).head? = some c → isWsChar c = false := by
  intro c hc
  unfold trimList at hc
  rw [List.head?_reverse] at hc
  have hne : (cs.dropWhile isWsChar).reverse.dropWhile isWsChar ≠ [] := by
    intro h0
    rw [h0] at hc
    exact Option.noConfusion hc
  rw [getLast?_dropWhile_of_ne_nil hne] at hc
  rw [show (cs.dropWhile isWsChar).reverse.getLast? = (cs.dropWhile isWsChar).head? from by
    rw [← List.head?_reverse, List.reverse_reverse]] at hc
  exact head?_dropWhile_not_of_some hc

/-- The last character of a trimmed string is never whitespace. -/
theorem trimList_getLast_not_ws {cs : List Char} :
    ∀ c, (trimList cs).getLast? = some c → isWsChar c = false := by
  intro c hc
  unfold trimList at hc
  rw [show ((cs.dropWhile isWsChar).reverse.dropWhile isWsChar).reverse.getLast? =
      ((cs.dropWhile isWsChar).reverse.dropWhile isWsChar).head? from by
    rw [← List.head?_reverse, List.reverse_reverse]] at hc
  exact head?_dropWhile_not_of_some hc

/-! ## Claim theorems -/

/-- Claim C5: for every string returned by the generative capability,
`extractEvents` returns exactly the split of that string on the
double-quote character with empty and whitespace-only entries dropped
(the `event !== ' '` conjunct in the source is redundant), and every
returned event contains at least one non-whitespace character. -/
theorem extractEvents_split_filter_spec (respData : List Char) :
    extractEvents respData =
      (splitAllCh '"' respData).filter (fun e => decide (trimList e ≠ [])) ∧
    ∀ e ∈ extractEvents respData, ∃ c ∈ e, isWsChar c = false := by
  have hfilter : extractEvents respData =
      (splitAllCh '"' respData).filter (fun e => decide (trimList e ≠ [])) := by
    unfold extractEvents
    apply List.filter_congr
    intro e _
    by_cases h : trimList e = []
    · simp [h]
    · have hsp : e ≠ [' '] := fun he => h (by rw [he]; decide)
      simp [h, hsp]
  refine ⟨hfilter, ?_⟩
  intro e he
  rw [hfilter] at he
  have := List.of_mem_filter he
  exact exists_not_ws_of_trimList_ne_nil (by simpa using this)

/-- Claim C5 witness: a concrete capability response. -/
theorem extractEvents_split_filter_spec_witness :
    ∃ c ∈ ("ev1".toList : List Char), isWsChar c = false :=
  (extractEvents_split_filter_spec (" \"ev1\" \" \" ".toList)).2
    ("ev1".toList) (by decide)

/-- Claim C6: `extractDisease` returns exactly the capability response with
leading and trailing whitespace removed: the response decomposes as
all-whitespace flank, the returned value, all-whitespace flank; the
returned value's own endpoints are non-whitespace (so no surrounding
whitespace survives — together with the decomposition this determines the
output uniquely); and the function is the identity on responses with no
surrounding whitespace. -/
theorem extractDisease_trim_spec (respData : List Char) :
    (∃ pre suf, respData = pre ++ extractDisease respData ++ suf ∧
      (∀ c ∈ pre, isWsChar c = true) ∧ (∀ c ∈ suf, isWsChar c = true)) ∧
    (∀ c, (extractDisease respData).head? = some c → isWsChar c = false) ∧
    (∀ c, (extractDisease respData).getLast? = some c → isWsChar c = false) ∧
    ((∀ c, respData.head? = some c → isWsChar c = false) →
     (∀ c, respData.getLast? = some c → isWsChar c = false) →
     extractDisease respData = respData) := by
  refine ⟨trimList_decomposition respData, ?_, ?_, ?_⟩
  · exact fun c hc => trimList_head_not_ws c hc
  · exact fun c hc => trimList_getLast_not_ws c hc
  · intro h1 h2
    exact trimList_eq_self h1 h2

/-- Claim C6 witness: concrete responses with and without surrounding
whitespace. -/
theorem extractDisease_trim_spec_witness :
    extractDisease ("glioma".toList) = "glioma".toList :=
  (extractDisease_trim_spec ("glioma".toList)).2.2.2
    (by decide) (by decide)

/-- Claim C7: when the underlying capability is a deterministic function of
its input, two successive `extractDisease` calls on identical input text
yield identical output. -/
theorem extractDisease_deterministic_cap (cap : Nat → List Char → List Char)
    (text : List Char) (hdet : ∀ i j t, cap i t = cap j t) :
    extractDiseaseWith cap 0 text = extractDiseaseWith cap 1 text := by
  unfold extractDiseaseWith
  rw [hdet 0 1 text]

/-- Claim C7 witness: a concrete deterministic stub capability. -/
theorem extractDisease_deterministic_cap_witness :
    extractDiseaseWith (fun _ t => t) 0 (" dipg ".toList) =
      extractDiseaseWith (fun _ t => t) 1 (" dipg ".toList) :=
  extractDisease_deterministic_cap (fun _ t => t) (" dipg ".toList)
    (fun _ _ _ => rfl)

/-- Claim C9: `redactSensitiveInfo` either returns the `redactedText` field
of a successful capability response or raises an error wrapping the
failure cause; on every capability error it raises and returns no value —
it never falls back to the unredacted input. -/
theorem redactSensitiveInfo_ok_or_error
    (cap : List Char → Except (List Char) RedactResponse) (text : List Char) :
    (∃ resp, cap text = .ok resp ∧
      redactSensitiveInfo cap text = .ok resp.redactedText) ∨
    (∃ err, cap text = .error err ∧
      redactSensitiveInfo cap text = .error (redactErrMsg ++ err) ∧
      ∀ v, redactSensitiveInfo cap text ≠ .ok v) := by
  cases h : cap text with
  | ok resp =>
    exact Or.inl ⟨resp, rfl, by simp [redactSensitiveInfo, h]⟩
  | error err =>
    refine Or.inr ⟨err, rfl, by simp [redactSensitiveInfo, h], ?_⟩
    intro v
    simp [redactSensitiveInfo, h]

/-- Claim C1: for every byte stream produced by the retrieve-and-analyze
endpoint (whose complete lines are JSON objects, hence never
whitespace-only) and any two ways of splitting it into network chunks,
`retrieveAndAnalyzeArticles` delivers the same sequence of values to
`onProgress` — and the drain loop terminates — because bytes are buffered
until a full newline-terminated line is available. -/
theorem retrieve_chunk_boundary_invariance (c1 c2 : List (List Char))
    (hgood : goodLines c1.flatten) (heq : c1.flatten = c2.flatten) :
    retrieveAndAnalyzeArticles c1 = retrieveAndAnalyzeArticles c2 ∧
    ∃ out, retrieveAndAnalyzeArticles c1 = some out := by
  have h1 := retrieveRun_good c1 hgood
  have h2 := retrieveRun_good c2 (heq ▸ hgood)
  rw [h1, h2, heq]
  exact ⟨rfl, _, rfl⟩

/-- Claim C1 witness: one event stream, delivered whole and split mid-line. -/
theorem retrieve_chunk_boundary_invariance_witness :
    retrieveAndAnalyzeArticles [encodeObj [("type".toList, "status".toList)] ++ ['\n']] =
      retrieveAndAnalyzeArticles
        [(encodeObj [("type".toList, "status".toList)] ++ ['\n']).take 5,
         (encodeObj [("type".toList, "status".toList)] ++ ['\n']).drop 5] ∧
    ∃ out, retrieveAndAnalyzeArticles
      [encodeObj [("type".toList, "status".toList)] ++ ['\n']] = some out :=
  retrieve_chunk_boundary_invariance
    [encodeObj [("type".toList, "status".toList)] ++ ['\n']]
    [(encodeObj [("type".toList, "status".toList)] ++ ['\n']).take 5,
     (encodeObj [("type".toList, "status".toList)] ++ ['\n']).drop 5]
    (by decide) (by decide)

theorem splitAllCh_sseFrame (t : List Char) :
    splitAllCh '\n' (sseFrame t) = [dataTag ++ encodeObj [("text".toList, t)], []] := by
  have hnm : '\n' ∉ dataTag ++ encodeObj [("text".toList, t)] := by
    intro h
    rcases List.mem_append.mp h with h | h
    · exact absurd h (by decide)
    · exact nl_not_mem_encodeObj _ h
  unfold splitAllCh
  rw [show sseFrame t = (dataTag ++ encodeObj [("text".toList, t)]) ++ '\n' :: [] from rfl]
  rw [linesOf_line_append hnm]
  rfl

theorem chatLines_cons_data (line : List Char) (rest : List (List Char))
    (hpre : startsWithL dataTag line = true) :
    chatLines (line :: rest) =
      (if line.drop 6 = doneLit then []
       else
         match chatEmit (line.drop 6) with
         | some x => x :: chatLines rest
         | none => chatLines rest) := by
  simp only [chatLines, hpre, if_true]

theorem chatLines_sseFrame (t : List Char) (ht : t ≠ []) :
    chatLines (splitAllCh '\n' (sseFrame t)) = [t] := by
  rw [splitAllCh_sseFrame]
  have hd : (dataTag ++ encodeObj [("text".toList, t)]).drop 6 =
      encodeObj [("text".toList, t)] := by
    rw [show (6 : Nat) = dataTag.length from rfl]
    exact List.drop_left _ _
  have hne : encodeObj [("text".toList, t)] ≠ doneLit := by
    intro heq
    have hh := congrArg List.head? heq
    rw [show (encodeObj [("text".toList, t)]).head? = some '{' from rfl] at hh
    exact absurd hh (by decide)
  have hemit : chatEmit (encodeObj [("text".toList, t)]) = some t := by
    unfold chatEmit
    rw [jsonParse_encodeObj]
    cases t with
    | nil => exact absurd rfl ht
    | cons a t' => simp [lookupKey]
  rw [chatLines_cons_data _ _ (startsWithL_append _ _), hd, if_neg hne]
  simp only [hemit]
  rw [show chatLines [([] : List Char)] = [] from by decide]

/-- Claim C4: a chat stream of exactly three SSE text frames followed by
the sentinel frame `data: [DONE]` makes `streamChat` invoke `onChunk`
exactly three times, once per frame in emission order, with no further
callbacks after the sentinel. -/
theorem streamChat_three_frames_then_done (t1 t2 t3 : List Char)
    (h1 : t1 ≠ []) (h2 : t2 ≠ []) (h3 : t3 ≠ []) :
    streamChat [sseFrame t1, sseFrame t2, sseFrame t3, sseDoneFrame] = [t1, t2, t3] := by
  have hdone : chatLines (splitAllCh '\n' sseDoneFrame) = [] := by decide
  simp [streamChat, chatLines_sseFrame t1 h1, chatLines_sseFrame t2 h2,
    chatLines_sseFrame t3 h3, hdone]

/-- Claim C4 witness: a concrete three-chunk chat stream. -/
theorem streamChat_three_frames_then_done_witness :
    streamChat [sseFrame ("a".toList), sseFrame ("b".toList), sseFrame ("c".toList),
      sseDoneFrame] = ["a".toList, "b".toList, "c".toList] :=
  streamChat_three_frames_then_done ("a".toList) ("b".toList) ("c".toList)
    (by decide) (by decide) (by decide)

/-- Claim C2: refuted at a concrete input — `streamChat` does NOT buffer
partial reads across chunk boundaries: the same byte stream (one SSE frame
`data: ...` carrying text `hi`) delivers `["hi"]` when received as one
chunk but `[]` when split mid-frame into two chunks, because each chunk is
decoded and split on newlines independently. -/
theorem streamChat_split_frame_dropped :
    streamChat [sseFrame ("hi".toList)] = ["hi".toList] ∧
    streamChat [(sseFrame ("hi".toList)).take 10, (sseFrame ("hi".toList)).drop 10] = [] ∧
    [sseFrame ("hi".toList)].flatten =
      [(sseFrame ("hi".toList)).take 10, (sseFrame ("hi".toList)).drop 10].flatten :=
  ⟨rfl, rfl, by decide⟩

/-- Claim C8: refuted at a concrete input — a whitespace-only line is
skipped without invoking `onProgress`, but it DOES derail the processing of
subsequent lines: the `continue` skips the recomputation of `lineEnd`, so
after the line `"  "` the valid JSON event line that follows in the same
buffer is sliced at the stale index and lost (first conjunct, versus the
second conjunct without the blank line); and when the blank line ends the
buffer the drain loop never terminates (third conjunct, `none`). -/
theorem retrieve_empty_line_derails :
    retrieveAndAnalyzeArticles
      [("  \n").toList ++ encodeObj [("type".toList, "x".toList)] ++ ['\n']] = some [] ∧
    retrieveAndAnalyzeArticles [encodeObj [("type".toList, "x".toList)] ++ ['\n']] =
      some [[("type".toList, "x".toList)]] ∧
    retrieveAndAnalyzeArticles [("  \n").toList] = none :=
  ⟨rfl, rfl, rfl⟩

/-- Claim C3: in every ProgressEvent stream produced by the endpoint
(modelled from the spec: a well-formed stream ends with exactly one
terminal event) and observed through `retrieveAndAnalyzeArticles`'s
`onProgress` callback, exactly one terminal event (`done` or terminal
`error`) occurs, its index is the stream length minus one, and nothing is
delivered after it. -/
theorem retrieve_terminal_event_last (es : List PEvent) (chunks : List (List Char))
    (hwf : wellFormedStream es) (hwire : chunks.flatten = wireOf es) :
    ∃ d, retrieveAndAnalyzeArticles chunks = some d ∧ d = es.map toObj ∧
      d.countP isTerminalObj = 1 ∧
      ∀ i (hi : i < d.length), isTerminalObj (d.get ⟨i, hi⟩) = true →
        i = d.length - 1 := by
  obtain ⟨pre, t, hes, ht, hpre⟩ := hwf
  subst hes
  refine ⟨(pre ++ [t]).map toObj, retrieve_delivers_wire chunks _ hwire, rfl, ?_, ?_⟩
  · have h0 : (pre.map toObj).countP isTerminalObj = 0 := by
      rw [List.countP_eq_zero]
      intro o ho
      rw [List.mem_map] at ho
      obtain ⟨e, he, rfl⟩ := ho
      rw [isTerminalObj_toObj]
      simp [hpre e he]
    rw [List.map_append, List.countP_append, h0]
    simp [List.countP_cons, isTerminalObj_toObj, ht]
  · intro i hi hterm
    have hlen : ((pre ++ [t]).map toObj).length = pre.length + 1 := by simp
    rcases Nat.lt_or_ge i pre.length with hlt | hge
    · exfalso
      have hget : ((pre ++ [t]).map toObj).get ⟨i, hi⟩ =
          toObj ((pre ++ [t]).get ⟨i, by simpa using hi⟩) := by
        rw [List.get_eq_getElem, List.get_eq_getElem, List.getElem_map]
      have happ : (pre ++ [t]).get ⟨i, by simpa using hi⟩ =
          pre.get ⟨i, hlt⟩ := by
        rw [List.get_eq_getElem, List.get_eq_getElem]
        exact List.getElem_append_left hlt
      rw [hget, happ, isTerminalObj_toObj] at hterm
      have hmem : pre.get ⟨i, hlt⟩ ∈ pre := List.get_mem pre i hlt
      rw [hpre _ hmem] at hterm
      exact Bool.noConfusion hterm
    · rw [hlen] at hi ⊢
      omega

/-- Claim C3 witness: a concrete two-event stream ending in `done`,
delivered split across two chunks. -/
theorem retrieve_terminal_event_last_witness :
    ∃ d, retrieveAndAnalyzeArticles
        [(wireOf [⟨.article, "p1".toList⟩, ⟨.done, ([] : List Char)⟩]).take 7,
         (wireOf [⟨.article, "p1".toList⟩, ⟨.done, ([] : List Char)⟩]).drop 7] = some d ∧
      d = ([⟨.article, "p1".toList⟩, ⟨.done, ([] : List Char)⟩] : List PEvent).map toObj ∧
      d.countP isTerminalObj = 1 ∧
      ∀ i (hi : i < d.length), isTerminalObj (d.get ⟨i, hi⟩) = true →
        i = d.length - 1 :=
  retrieve_terminal_event_last
    [⟨.article, "p1".toList⟩, ⟨.done, ([] : List Char)⟩]
    [(wireOf [⟨.article, "p1".toList⟩, ⟨.done, ([] : List Char)⟩]).take 7,
     (wireOf [⟨.article, "p1".toList⟩, ⟨.done, ([] : List Char)⟩]).drop 7]
    ⟨[⟨.article, "p1".toList⟩], ⟨.done, ([] : List Char)⟩, rfl, rfl,
      by intro e he; simp at he; subst he; rfl⟩
    (by decide)

/-- Claim C10: refuted at a concrete input — when the fetch resolves to the
JSON value `null` (a falsy value), `getConfig` does not cache it: two
successive calls perform two fetch attempts, not at most one. -/
theorem getConfig_null_refetch_counterexample :
    (getConfigRun (fun _ => .ok .cnull) (fun _ => []) 2).2.2 = 2 := rfl

/-- Claim C10 (amended): provided the first fetch attempt fails (caching
the truthy env fallback) or resolves to a truthy value, `getConfig`
fetches at most once per process: over any `n ≥ 1` calls exactly one fetch
is attempted, and every call returns the identical cached value. -/
theorem getConfig_single_fetch_amended (oracle : Nat → Except Unit CVal)
    (env : String → List Char) (n : Nat) (h1 : 1 ≤ n)
    (h2 : truthyRes (oracle 0) = true) :
    (getConfigRun oracle env n).2.2 = 1 ∧
    truthy (getConfigRun oracle env n).2.1 = true ∧
    (getConfigRun oracle env n).1 =
      List.replicate n (getConfigRun oracle env n).2.1 := by
  induction n with
  | zero => exact absurd h1 (by omega)
  | succ n ih =>
    rcases Nat.eq_zero_or_pos n with rfl | hn
    · have htc : truthy CVal.cnull = false := rfl
      cases horacle : oracle 0 with
      | ok v =>
        have hv : truthy v = true := by simpa [truthyRes, horacle] using h2
        simp [getConfigRun, getConfig, fetchConfig, htc, horacle, hv]
      | error e =>
        simp [getConfigRun, getConfig, fetchConfig, htc, horacle, envFallbackConfig, truthy]
    · obtain ⟨hc, ht, hr⟩ := ih hn
      have hstep : getConfig (oracle (getConfigRun oracle env n).2.2) env
          (getConfigRun oracle env n).2.1 =
          ((getConfigRun oracle env n).2.1, (getConfigRun oracle env n).2.1, 0) := by
        unfold getConfig
        rw [if_pos ht]
      have hrun : getConfigRun oracle env (n + 1) =
          ((getConfigRun oracle env n).1 ++ [(getConfigRun oracle env n).2.1],
           (getConfigRun oracle env n).2.1, (getConfigRun oracle env n).2.2 + 0) := by
        simp only [getConfigRun]
        rw [hstep]
      rw [hrun]
      refine ⟨by simp [hc], ht, ?_⟩
      simp only
      rw [hr, List.replicate_succ']

/-- Claim C10 amended-claim witness: a concrete truthy-config oracle, two
calls, one fetch. -/
theorem getConfig_single_fetch_amended_witness :
    (getConfigRun (fun _ => .ok (.cobj [])) (fun _ => []) 2).2.2 = 1 ∧
    truthy (getConfigRun (fun _ => .ok (.cobj [])) (fun _ => []) 2).2.1 = true ∧
    (getConfigRun (fun _ => .ok (.cobj [])) (fun _ => []) 2).1 =
      List.replicate 2 (getConfigRun (fun _ => .ok (.cobj [])) (fun _ => []) 2).2.1 :=
  getConfig_single_fetch_amended (fun _ => .ok (.cobj [])) (fun _ => []) 2
    (by omega) (by decide)

/-- Claim C9 witness: concrete capabilities exercising both branches. -/
theorem redactSensitiveInfo_ok_or_error_witness :
    ((∃ resp, (fun _ : List Char =>
        (.error ("boom".toList) : Except (List Char) RedactResponse)) ("x".toList) = .ok resp ∧
      redactSensitiveInfo (fun _ => .error ("boom".toList)) ("x".toList) = .ok resp.redactedText) ∨
    (∃ err, (fun _ : List Char =>
        (.error ("boom".toList) : Except (List Char) RedactResponse)) ("x".toList) = .error err ∧
      redactSensitiveInfo (fun _ => .error ("boom".toList)) ("x".toList) =
        .error (redactErrMsg ++ err) ∧
      ∀ v, redactSensitiveInfo (fun _ => .error ("boom".toList)) ("x".toList) ≠ .ok v)) :=
  redactSensitiveInfo_ok_or_error (fun _ => .error ("boom".toList)) ("x".toList)

end Capricorn
